import Mathlib

/-!
Verification of the Cell-SPU assembler (`src/Compiler/assembler.py`).

The assembler is embedded shallowly: Python strings become `List Char`,
Python string methods (`strip`, `split`, `lstrip`, `rstrip`, `zfill`) become
executable Lean functions with the same semantics, fallible operations
(`int(...)`, tuple unpacking) return `Option`, and the driver loop
`Assembler.interpret_input` becomes a recursive function over the list of
source lines that returns the primary output lines, the diagnostic records
and an aborted flag.
-/

/-- The whitespace characters stripped by Python `str.strip()`. -/
def pySpace (c : Char) : Bool :=
  c == ' ' || c == '\t' || c == '\n' || c == '\r' || c == Char.ofNat 11 || c == Char.ofNat 12

/-- Leading-whitespace removal, the front half of Python `str.strip()`. -/
def stripStart (s : List Char) : List Char :=
  List.dropWhile pySpace s

/-- Trailing-whitespace removal, the back half of Python `str.strip()`. -/
def stripEnd (s : List Char) : List Char :=
  (List.dropWhile pySpace s.reverse).reverse

/-- Python `str.strip()`: remove whitespace from both ends. -/
def pyStrip (s : List Char) : List Char :=
  stripEnd (stripStart s)

/-- Whether `sep` occurs at the start of `s` (Python `str.startswith`). -/
def beginsWith : List Char → List Char → Bool
  | [], _ => true
  | _ :: _, [] => false
  | a :: s1, b :: s2 => a == b && beginsWith s1 s2

/-- Whether `sep` occurs anywhere in `s` (Python `sep in s`). -/
def containsSub (sep : List Char) : List Char → Bool
  | [] => sep.isEmpty
  | a :: rest => beginsWith sep (a :: rest) || containsSub sep rest

/-- The part of `s` before the first occurrence of `sep`, or all of `s`
when `sep` does not occur: Python `s.split(sep)[0]` for nonempty `sep`. -/
def beforeFirst (sep : List Char) : List Char → List Char
  | [] => []
  | a :: rest => if beginsWith sep (a :: rest) then [] else a :: beforeFirst sep rest

/-- Python `s.split(c)` for a single-character separator: splits at every
occurrence of `c`, keeping empty segments; the result is never empty. -/
def pySplitChar (c : Char) : List Char → List (List Char)
  | [] => [[]]
  | a :: rest =>
    if a = c then [] :: pySplitChar c rest
    else
      match pySplitChar c rest with
      | [] => [[a]]
      | r :: rs => (a :: r) :: rs

/-- Python `s.lstrip(str c)`: remove every leading occurrence of `c`. -/
def pyLstripChar (c : Char) (s : List Char) : List Char :=
  List.dropWhile (fun x => x == c) s

/-- Python `s.rstrip(str c)`: remove every trailing occurrence of `c`. -/
def pyRstripChar (c : Char) (s : List Char) : List Char :=
  (List.dropWhile (fun x => x == c) s.reverse).reverse

/-- Python `s.zfill(width)`: left-pad with `'0'` to `width`, keeping a
leading sign character in front of the inserted zeros. -/
def pyZfill (width : Nat) (s : List Char) : List Char :=
  if width ≤ s.length then s
  else
    match s with
    | [] => List.replicate width '0'
    | c :: rest =>
      if c = '+' ∨ c = '-' then c :: (List.replicate (width - s.length) '0' ++ rest)
      else List.replicate (width - s.length) '0' ++ s

/-- Fuel-driven worker for `natBin`; the fuel is an upper bound on the
value, so `natBinAux n n` always has enough fuel. -/
def natBinAux (fuel n : Nat) : List Char :=
  match fuel with
  | 0 => [if n = 1 then '1' else '0']
  | fuel + 1 =>
    if n < 2 then [if n = 1 then '1' else '0']
    else natBinAux fuel (n / 2) ++ [if n % 2 = 1 then '1' else '0']

/-- Binary digits of `n`, most significant first, as produced by Python
`bin(n)` after the `"0b"` marker is removed; `natBin 0 = ['0']`. -/
def natBin (n : Nat) : List Char :=
  natBinAux n n

/-- Python `bin(v).replace("0b", "")`: the binary digits of `|v|`, with a
leading `'-'` when `v` is negative. -/
def binRepr (v : Int) : List Char :=
  if v < 0 then '-' :: natBin v.natAbs else natBin v.natAbs

/-- Whether `c` is a decimal digit. -/
def pyDigit (c : Char) : Bool :=
  '0' ≤ c && c ≤ '9'

/-- Decimal value of a digit string. -/
def digitsVal (s : List Char) : Nat :=
  s.foldl (fun a c => 10 * a + (c.toNat - 48)) 0

/-- Python `int(s)`: surrounding whitespace is allowed, then an optional
sign followed by at least one decimal digit; anything else raises
`ValueError`, modelled as `none`.  (Underscore digit separators, which
Python also accepts, are not modelled; no claim involves them.) -/
def pyInt (s : List Char) : Option Int :=
  match pyStrip s with
  | '-' :: rest =>
    if rest ≠ [] ∧ rest.all pyDigit then some (-(digitsVal rest : Int)) else none
  | '+' :: rest =>
    if rest ≠ [] ∧ rest.all pyDigit then some ((digitsVal rest : Int)) else none
  | t => if t ≠ [] ∧ t.all pyDigit then some ((digitsVal t : Int)) else none

/-- Python `int(s, 2)`: value of a nonempty string of `'0'`/`'1'` digits,
`none` on any other string. -/
def pyIntBase2 (s : List Char) : Option Nat :=
  if s ≠ [] ∧ s.all (fun c => c == '0' || c == '1') then
    some (s.foldl (fun a c => 2 * a + (if c = '1' then 1 else 0)) 0)
  else none

/-- Uppercase hexadecimal digit for `n < 16`. -/
def hexDigitChar (n : Nat) : Char :=
  if n < 10 then Char.ofNat (48 + n) else Char.ofNat (55 + n)

/-- Fuel-driven worker for `natToHex`. -/
def natToHexAux (fuel n : Nat) : List Char :=
  match fuel with
  | 0 => [hexDigitChar n]
  | fuel + 1 =>
    if n < 16 then [hexDigitChar n]
    else natToHexAux fuel (n / 16) ++ [hexDigitChar (n % 16)]

/-- Uppercase hexadecimal digits of `n`, most significant first. -/
def natToHex (n : Nat) : List Char :=
  natToHexAux n n

/-- Python `'0x{0:0{1}X}'.format(n, 8)`: `"0x"` followed by the uppercase
hexadecimal of `n` zero-padded to 8 digits. -/
def hexField (n : Nat) : List Char :=
  ['0', 'x'] ++ List.replicate (8 - (natToHex n).length) '0' ++ natToHex n

/-- `Assembler.populate` (assembler.py lines 57-59):
`sequence = sequence.lstrip('-').zfill(span)` followed by
`return '1' + sequence[1:] if sequence.startswith('-') else sequence`.
The conditional branch is kept exactly as written even though the
preceding `lstrip('-')` makes it unreachable. -/
def populate (sequence : List Char) (span : Nat) : List Char :=
  let s := pyZfill span (pyLstripChar '-' sequence)
  if s.head? = some '-' then '1' :: s.tail else s

/-- The `else` branch of the operand loop in `Assembler.calculate`
(line 52): `self.populate(bin(int(op)).replace("0b", ""), 7)`. -/
def encodePlain (op : List Char) : Option (List Char) :=
  (pyInt op).map (fun v => populate (binRepr v) 7)

/-- One iteration of the operand loop in `Assembler.calculate`
(lines 44-53): tokens containing both `'('` and `')'` are split at the
first `'('` into a register part and an offset part (the segment up to the
next `'('`, with all trailing `')'` stripped), each encoded at width 7 and
concatenated; every other token is encoded whole.  A failing `int(...)`
conversion (`none`) is a fatal `ValueError`. -/
def encodeOperand (op : List Char) : Option (List Char) :=
  if '(' ∈ op ∧ ')' ∈ op then
    match pyInt ((pySplitChar '(' op).headD []),
          pyInt (pyRstripChar ')' (((pySplitChar '(' op).drop 1).headD [])) with
    | some r, some o => some (populate (binRepr r) 7 ++ populate (binRepr o) 7)
    | _, _ => none
  else encodePlain op

/-- The accumulation `instruction_binary += ...` over `operation[1:]` in
`Assembler.calculate` (lines 43-53). -/
def appendFields (acc : List Char) : List (List Char) → Option (List Char)
  | [] => some acc
  | op :: ops =>
    match encodeOperand op with
    | some f => appendFields (acc ++ f) ops
    | none => none

/-- `Assembler.calculate` (lines 42-54): concatenate the opcode with the
encoded operand fields of `operation[1:]`, then `zfill(32)`. -/
def calculate (operationCode : List Char) (operation : List (List Char)) :
    Option (List Char) :=
  (appendFields operationCode (operation.drop 1)).map (pyZfill 32)

/-- `Assembler.interpret_line` (lines 21-22):
`text_line.strip().split("//")[0].strip().split(" ")`. -/
def interpretLine (textLine : List Char) : List (List Char) :=
  pySplitChar ' ' (pyStrip (beforeFirst ['/', '/'] (pyStrip textLine)))

/-- First value bound to `key` in the association list, or `deflt`:
Python `dict.get(key, deflt)` for a dict represented newest-binding-first. -/
def lookupD (dict : List (List Char × List Char)) (key deflt : List Char) :
    List Char :=
  match dict with
  | [] => deflt
  | (k, v) :: rest => if k = key then v else lookupD rest key deflt

/-- Whether the association list binds `key`. -/
def hasKey (dict : List (List Char × List Char)) (key : List Char) : Bool :=
  match dict with
  | [] => false
  | (k, _) :: rest => k == key || hasKey rest key

/-- Mnemonic and opcode pattern read from one opcode-table line by
`Assembler.import_map` (lines 16-18): the stripped line must split on
`'\t'` into exactly two parts (otherwise tuple unpacking raises,
modelled as `none`); the key is the first space-separated token of the
descriptor and the value is the stripped bit pattern. -/
def lineKey (line : List Char) : Option (List Char × List Char) :=
  match pySplitChar '\t' (pyStrip line) with
  | [operation, rawCode] => some ((pySplitChar ' ' operation).headD [], pyStrip rawCode)
  | _ => none

/-- `Assembler.import_map` (lines 13-19): fold the table lines into the
dictionary; `self.instruction_to_opcode_dict[mnemonic] = operation_code`
is modelled by consing the new binding in front, so that `lookupD` sees
the latest binding first, exactly like a Python dict overwrite. -/
def importMap (dict : List (List Char × List Char)) :
    List (List Char) → Option (List (List Char × List Char))
  | [] => some dict
  | line :: rest =>
    match lineKey line with
    | some kv => importMap (kv :: dict) rest
    | none => none

/-- Result of a driver session: primary output lines, diagnostic records
(`debug.out` lines), and whether the run was aborted by an uncaught
exception.  On abort the already-written ("flushed") lines are kept. -/
structure RunResult where
  outputs : List (List Char)
  diags : List (List Char)
  aborted : Bool
deriving DecidableEq

/-- `Assembler.interpret_input` (lines 24-40) over the list of source
lines.  Per line: parse; if the mnemonic contains `"stop"`, break;
otherwise look up the opcode with the 11-zero fallback, encode, write the
word to the primary output, then write the diagnostic record — with the
hexadecimal column exactly when `log_severity == 2`.  The primary write
happens before the hex conversion, so a failing `int(binary, 2)` leaves
the word flushed but no diagnostic record. -/
def interpretInput (dict : List (List Char × List Char)) (logSeverity : Int) :
    List (List Char) → RunResult
  | [] => ⟨[], [], false⟩
  | textLine :: rest =>
    if containsSub "stop".toList ((interpretLine textLine).headD []) then
      ⟨[], [], false⟩
    else
      match calculate
          (lookupD dict ((interpretLine textLine).headD []) (List.replicate 11 '0'))
          (interpretLine textLine) with
      | none => ⟨[], [], true⟩
      | some binary =>
        match (if logSeverity = 2 then
                 (pyIntBase2 binary).map
                   (fun v => binary ++ '\t' :: (hexField v ++ '\t' :: textLine))
               else some (binary ++ '\t' :: textLine)) with
        | none => ⟨[binary], [], true⟩
        | some diag =>
          ⟨binary :: (interpretInput dict logSeverity rest).outputs,
           diag :: (interpretInput dict logSeverity rest).diags,
           (interpretInput dict logSeverity rest).aborted⟩

/-- The `log_severity` value produced by the command line (`__main__`,
lines 64-67): `--debug` is an `argparse` `store_true` flag, so
`self.log_severity` is the Python bool `True` or `False`, which compare
as the integers 1 and 0. -/
def mainSeverity (debug : Bool) : Int :=
  if debug then 1 else 0

/-- Operand fields of a token list in order, `none` when any token fails
to encode; used to state properties of `calculate`. -/
def fieldsOf : List (List Char) → Option (List (List Char))
  | [] => some []
  | op :: ops =>
    match encodeOperand op, fieldsOf ops with
    | some f, some fs => some (f :: fs)
    | _, _ => none

/-! ### Helper lemmas about the string primitives -/

theorem stripEnd_eq_iff (s : List Char) :
    stripEnd s = s ↔ List.dropWhile pySpace s.reverse = s.reverse := by
  rw [stripEnd, List.reverse_eq_iff]

theorem stripEnd_length_le (s : List Char) : (stripEnd s).length ≤ s.length := by
  have h := (List.dropWhile_sublist (l := s.reverse) pySpace).length_le
  simpa [stripEnd] using h

theorem stripStart_eq_self {t : List Char} (h : pyStrip t = t) : stripStart t = t := by
  have h1 : (stripEnd (stripStart t)).length ≤ (stripStart t).length :=
    stripEnd_length_le _
  have h2 : (stripStart t).length ≤ t.length :=
    (List.dropWhile_sublist pySpace).length_le
  have h3 : (stripEnd (stripStart t)).length = t.length := by
    rw [pyStrip] at h; rw [h]
  have h4 : (stripStart t).length = t.length := by omega
  exact (List.dropWhile_sublist pySpace).eq_of_length h4

theorem stripEnd_eq_self {t : List Char} (h : pyStrip t = t) : stripEnd t = t := by
  have hs := stripStart_eq_self h
  rw [pyStrip, hs] at h
  exact h

theorem head_not_space {a : Char} {t : List Char}
    (h : stripStart (a :: t) = a :: t) : pySpace a = false := by
  cases hpa : pySpace a with
  | false => rfl
  | true =>
    exfalso
    have h1 : stripStart (a :: t) = stripStart t := by
      simp [stripStart, List.dropWhile_cons, hpa]
    have h2 : (stripStart t).length ≤ t.length :=
      (List.dropWhile_sublist pySpace).length_le
    rw [h1] at h
    have h3 := congrArg List.length h
    simp only [List.length_cons] at h3
    omega

theorem stripEnd_append {u : List Char} (c : List Char) (hu : stripEnd u = u) :
    stripEnd (u ++ c) = u ++ stripEnd c := by
  rw [stripEnd_eq_iff] at hu
  rw [stripEnd, List.reverse_append, List.dropWhile_append]
  by_cases hc : List.dropWhile pySpace c.reverse = []
  · simp [hc, hu, stripEnd]
  · have : (List.dropWhile pySpace c.reverse).isEmpty = false := by
      simpa [List.isEmpty_iff] using hc
    simp [this, stripEnd]

theorem stripEnd_slashes (t c : List Char) :
    stripEnd (t ++ '/' :: '/' :: c) = (t ++ ['/', '/']) ++ stripEnd c := by
  have h : stripEnd (t ++ ['/', '/']) = t ++ ['/', '/'] := by
    rw [stripEnd_eq_iff, List.reverse_append]
    simp [List.dropWhile_cons, pySpace]
  have e : t ++ '/' :: '/' :: c = (t ++ ['/', '/']) ++ c := by simp
  rw [e, stripEnd_append c h]

theorem beginsWith_append_left {sep s : List Char} (r : List Char)
    (h : beginsWith sep s = true) : beginsWith sep (s ++ r) = true := by
  induction sep generalizing s with
  | nil => rfl
  | cons a sep' ih =>
    cases s with
    | nil => simp [beginsWith] at h
    | cons b s' =>
      simp only [beginsWith, Bool.and_eq_true, beq_iff_eq] at h
      simp only [List.cons_append, beginsWith, Bool.and_eq_true, beq_iff_eq]
      exact ⟨h.1, ih h.2⟩

theorem beginsWith_length_le {sep s : List Char}
    (h : beginsWith sep s = true) : sep.length ≤ s.length := by
  induction sep generalizing s with
  | nil => simp
  | cons a sep' ih =>
    cases s with
    | nil => simp [beginsWith] at h
    | cons b s' =>
      simp only [beginsWith, Bool.and_eq_true] at h
      have := ih h.2
      simp
      omega

theorem beginsWith_append_of_length_le {sep s : List Char} (r : List Char)
    (h : sep.length ≤ s.length) : beginsWith sep (s ++ r) = beginsWith sep s := by
  induction sep generalizing s with
  | nil => rfl
  | cons a sep' ih =>
    cases s with
    | nil => simp at h
    | cons b s' =>
      have hx : beginsWith sep' (s' ++ r) = beginsWith sep' s' := ih (by simpa using h)
      rw [List.cons_append]
      show (a == b && beginsWith sep' (s' ++ r)) = (a == b && beginsWith sep' s')
      rw [hx]

theorem containsSub_length_le {sep s : List Char}
    (h : containsSub sep s = true) : sep.length ≤ s.length := by
  induction s with
  | nil =>
    simp only [containsSub, List.isEmpty_iff] at h
    simp [h]
  | cons a rest ih =>
    simp only [containsSub, Bool.or_eq_true] at h
    rcases h with h | h
    · exact beginsWith_length_le h
    · have := ih h
      simp
      omega

theorem beforeFirst_of_not_contains {sep s : List Char}
    (h : containsSub sep s = false) : beforeFirst sep s = s := by
  induction s with
  | nil => rfl
  | cons a rest ih =>
    simp only [containsSub, Bool.or_eq_false_iff] at h
    simp [beforeFirst, h.1, ih h.2]

theorem beforeFirst_append_of_contains {sep t : List Char} (r : List Char)
    (h : containsSub sep t = true) : beforeFirst sep (t ++ r) = beforeFirst sep t := by
  induction t with
  | nil =>
    simp only [containsSub, List.isEmpty_iff] at h
    subst h
    cases r with
    | nil => rfl
    | cons a r' => simp [beforeFirst, beginsWith]
  | cons a t' ih =>
    simp only [containsSub, Bool.or_eq_true] at h
    rcases h with h | h
    · have h1 : beginsWith sep (a :: (t' ++ r)) = true := by
        have hx := beginsWith_append_left r h
        rwa [List.cons_append] at hx
      rw [List.cons_append]
      simp only [beforeFirst]
      rw [h1, h]
      simp
    · have hlen : sep.length ≤ (a :: t').length := by
        have := containsSub_length_le h
        simp
        omega
      have h2 : beginsWith sep (a :: (t' ++ r)) = beginsWith sep (a :: t') := by
        have hx := beginsWith_append_of_length_le (s := a :: t') r hlen
        rwa [List.cons_append] at hx
      rw [List.cons_append]
      simp only [beforeFirst]
      rw [h2, ih h]

theorem beforeFirst_slashes {t : List Char} (d : List Char)
    (h : containsSub ['/', '/'] t = false) :
    beforeFirst ['/', '/'] (t ++ ' ' :: '/' :: '/' :: d) = t ++ [' '] := by
  induction t with
  | nil =>
    simp [beforeFirst, beginsWith]
  | cons a t' ih =>
    simp only [containsSub, Bool.or_eq_false_iff] at h
    have hb : beginsWith ['/', '/'] (a :: (t' ++ ' ' :: '/' :: '/' :: d)) = false := by
      cases t' with
      | nil => simp [beginsWith]
      | cons b t'' =>
        have hx : beginsWith ['/', '/'] (a :: b :: t'') = false := h.1
        simp only [beginsWith, List.cons_append] at hx ⊢
        exact hx
    rw [List.cons_append]
    simp only [beforeFirst]
    rw [hb, ih h.2, List.cons_append]
    simp

theorem pyStrip_append_comment (t c : List Char) (h : pyStrip t = t) (ha : t ≠ []) :
    pyStrip (t ++ ' ' :: '/' :: '/' :: c) = (t ++ [' ', '/', '/']) ++ stripEnd c := by
  obtain ⟨a, t', rfl⟩ : ∃ a t', t = a :: t' := by
    cases t with
    | nil => exact absurd rfl ha
    | cons a t' => exact ⟨a, t', rfl⟩
  have hwa : pySpace a = false := head_not_space (stripStart_eq_self h)
  rw [pyStrip]
  have hss : stripStart ((a :: t') ++ ' ' :: '/' :: '/' :: c)
      = (a :: t') ++ ' ' :: '/' :: '/' :: c := by
    rw [List.cons_append, stripStart, List.dropWhile_cons, hwa]
    simp
  rw [hss]
  have e : (a :: t') ++ ' ' :: '/' :: '/' :: c = ((a :: t') ++ [' ']) ++ '/' :: '/' :: c := by
    simp
  rw [e, stripEnd_slashes ((a :: t') ++ [' ']) c]
  simp

theorem pyStrip_append_space {t : List Char} (h : pyStrip t = t) :
    pyStrip (t ++ [' ']) = t := by
  cases t with
  | nil => rfl
  | cons a t' =>
    have hwa : pySpace a = false := head_not_space (stripStart_eq_self h)
    have hse : stripEnd (a :: t') = a :: t' := stripEnd_eq_self h
    have h5 : List.dropWhile pySpace ((a :: t').reverse) = (a :: t').reverse :=
      (stripEnd_eq_iff _).mp hse
    rw [pyStrip]
    have hss : stripStart ((a :: t') ++ [' ']) = (a :: t') ++ [' '] := by
      rw [List.cons_append, stripStart, List.dropWhile_cons, hwa]
      simp
    rw [hss, stripEnd, List.reverse_append]
    have e : ([' '] : List Char).reverse = [' '] := rfl
    rw [e, List.cons_append, List.nil_append, List.dropWhile_cons]
    have hsp : pySpace ' ' = true := by decide
    rw [hsp]
    simp only [if_pos]
    rw [h5, List.reverse_reverse]

/-- Claim C9: comment stripping is idempotent with respect to parsing:
appending a `"//"`-comment (after a separating space) to a trimmed line
does not change the result of `Assembler.interpret_line`; in particular
`parse("add 1 2 // comment") = parse("add 1 2")`. -/
theorem c9_comment_idempotent (t c : List Char) (h : pyStrip t = t) :
    interpretLine (t ++ ' ' :: '/' :: '/' :: c) = interpretLine t := by
  cases ht : t with
  | nil =>
    subst ht
    rw [List.nil_append, interpretLine]
    have hss : stripStart (' ' :: '/' :: '/' :: c) = '/' :: '/' :: c := rfl
    have h1 : pyStrip (' ' :: '/' :: '/' :: c) = '/' :: '/' :: stripEnd c := by
      rw [pyStrip, hss]
      have h2 := stripEnd_slashes [] c
      simpa using h2
    rw [h1]
    have h3 : beforeFirst ['/', '/'] ('/' :: '/' :: stripEnd c) = [] := rfl
    rw [h3]
    rfl
  | cons a t' =>
    subst ht
    have h1 := pyStrip_append_comment (a :: t') c h (by simp)
    by_cases hcont : containsSub ['/', '/'] (a :: t') = true
    · have h2 : beforeFirst ['/', '/'] (((a :: t') ++ [' ', '/', '/']) ++ stripEnd c)
          = beforeFirst ['/', '/'] (a :: t') := by
        have e : ((a :: t') ++ [' ', '/', '/']) ++ stripEnd c
            = (a :: t') ++ ([' ', '/', '/'] ++ stripEnd c) := by simp
        rw [e, beforeFirst_append_of_contains _ hcont]
      rw [interpretLine, interpretLine, h1, h2, h]
    · have hcf : containsSub ['/', '/'] (a :: t') = false := by
        cases hx : containsSub ['/', '/'] (a :: t') with
        | false => rfl
        | true => exact absurd hx hcont
      have h2 : beforeFirst ['/', '/'] (((a :: t') ++ [' ', '/', '/']) ++ stripEnd c)
          = (a :: t') ++ [' '] := by
        have e : ((a :: t') ++ [' ', '/', '/']) ++ stripEnd c
            = (a :: t') ++ ' ' :: '/' :: '/' :: stripEnd c := by simp
        rw [e, beforeFirst_slashes (stripEnd c) hcf]
      rw [interpretLine, interpretLine, h1, h2, pyStrip_append_space h, h,
        beforeFirst_of_not_contains hcf, h]

theorem c9_witness :
    interpretLine ("add 1 2 // comment".toList) = interpretLine ("add 1 2".toList) := by
  have h := c9_comment_idempotent ("add 1 2".toList) (" comment".toList) (by decide)
  have e : "add 1 2".toList ++ ' ' :: '/' :: '/' :: (" comment".toList)
      = "add 1 2 // comment".toList := by decide
  rw [e] at h
  exact h

/-- Claim C4: once a line whose parsed mnemonic contains `"stop"` is
reached, the driver stops: neither that line nor any later line —
regardless of content — produces a primary output line or a diagnostic
record. -/
theorem c4_stop_sentinel (dict : List (List Char × List Char)) (sev : Int)
    (line : List Char) (rest : List (List Char))
    (h : containsSub "stop".toList ((interpretLine line).headD []) = true) :
    interpretInput dict sev (line :: rest) = ⟨[], [], false⟩ := by
  rw [interpretInput, if_pos h]

theorem c4_witness :
    interpretInput [] 0 ("stop".toList :: ["add 1 2".toList]) = ⟨[], [], false⟩ :=
  c4_stop_sentinel [] 0 "stop".toList ["add 1 2".toList] (by decide)

/-- Claim C1 (evaluation at the failing input): the signed-field rule of
the spec demands `encode(-5, 7) = "1000101"`, but `Assembler.populate`
strips the minus sign before testing for it, so the sign branch is
unreachable and the code yields `"0000101"`; the non-negative examples
`encode(5, 7) = "0000101"` and `encode(0, 7) = "0000000"` do hold. -/
theorem c1_signed_encoding_eval :
    encodePlain "-5".toList = some ("0000101".toList)
    ∧ encodePlain "5".toList = some ("0000101".toList)
    ∧ encodePlain "0".toList = some ("0000000".toList)
    ∧ "0000101".toList ≠ "1000101".toList := by
  decide

theorem appendFields_eq_none {ops : List (List Char)} (acc : List Char)
    (h : ∃ op ∈ ops, encodeOperand op = none) : appendFields acc ops = none := by
  induction ops generalizing acc with
  | nil => simp at h
  | cons op ops ih =>
    rcases h with ⟨op', hmem, hnone⟩
    rcases List.mem_cons.mp hmem with rfl | hmem'
    · rw [appendFields, hnone]
    · cases he : encodeOperand op with
      | none => rw [appendFields, he]
      | some f =>
        rw [appendFields, he]
        exact ih _ ⟨op', hmem', hnone⟩

/-- Claim C8 (amended): an operand token whose attempted integer
conversion fails — for tokens containing both `'('` and `')'`, either of
the two split parts; otherwise the token itself — raises an uncaught
`ValueError` that aborts the whole run: the failing line and all later
lines produce no output line and no diagnostic record. -/
theorem c8_operand_error_aborts (dict : List (List Char × List Char)) (sev : Int)
    (line : List Char) (rest : List (List Char))
    (hstop : containsSub "stop".toList ((interpretLine line).headD []) = false)
    (hbad : ∃ op ∈ (interpretLine line).drop 1, encodeOperand op = none) :
    interpretInput dict sev (line :: rest) = ⟨[], [], true⟩ := by
  have hcalc : calculate
      (lookupD dict ((interpretLine line).headD []) (List.replicate 11 '0'))
      (interpretLine line) = none := by
    rw [calculate, appendFields_eq_none _ hbad]
    rfl
  rw [interpretInput, if_neg (by rw [hstop]; exact Bool.false_ne_true), hcalc]

theorem c8_witness :
    interpretInput [] 0 ("add x".toList :: ["add 1".toList]) = ⟨[], [], true⟩ :=
  c8_operand_error_aborts [] 0 "add x".toList ["add 1".toList] (by decide)
    ⟨"x".toList, by decide, by decide⟩

/-- Claim C8 counterexample: the token `"1(2)(3)"` is neither an integer
literal (`int` fails on it) nor a well-formed indexed form `R(O)`, yet
the encoder does not raise: the run completes without aborting, both
lines producing output. -/
theorem c8_counterexample :
    pyInt "1(2)(3)".toList = none
    ∧ (interpretInput [] 0 ["add 1(2)(3)".toList, "add 1".toList]).aborted = false
    ∧ (interpretInput [] 0 ["add 1(2)(3)".toList, "add 1".toList]).outputs.length = 2 := by
  decide

theorem lookupD_of_not_hasKey {dict : List (List Char × List Char)} {key : List Char}
    (h : hasKey dict key = false) (deflt : List Char) : lookupD dict key deflt = deflt := by
  induction dict with
  | nil => rfl
  | cons kv rest ih =>
    obtain ⟨k, v⟩ := kv
    simp only [hasKey, Bool.or_eq_false_iff, beq_eq_false_iff_ne, ne_eq] at h
    rw [lookupD, if_neg h.1]
    exact ih h.2

/-- Claim C2 counterexample: an empty line and a comment-only line both
parse to the empty mnemonic, but the driver is not a no-op on them: the
empty line produces the 32-zero word on the primary output and a
diagnostic record. -/
theorem c2_counterexample :
    interpretLine [] = [[]]
    ∧ interpretLine ("// note".toList) = [[]]
    ∧ (interpretInput [("add".toList, "000000".toList)] 0 [[]]).outputs
        = [List.replicate 32 '0']
    ∧ (interpretInput [("add".toList, "000000".toList)] 0 [[]]).diags.length = 1 := by
  decide

/-- Claim C2 (amended): an empty or comment-only source line parses to an
empty mnemonic, and the driver does not skip it: the empty mnemonic is
looked up (hitting the 11-zero fallback when the table has no empty key),
and the line emits the 32-zero word plus one diagnostic record. -/
theorem c2_empty_line_emits_zero_word (dict : List (List Char × List Char)) (sev : Int)
    (line : List Char) (rest : List (List Char))
    (hline : interpretLine line = [[]])
    (hkey : hasKey dict [] = false) :
    (interpretInput dict sev (line :: rest)).outputs
        = List.replicate 32 '0' :: (interpretInput dict sev rest).outputs
    ∧ (interpretInput dict sev (line :: rest)).diags.length
        = (interpretInput dict sev rest).diags.length + 1
    ∧ (interpretInput dict sev (line :: rest)).aborted
        = (interpretInput dict sev rest).aborted := by
  have hmnem : (interpretLine line).headD [] = [] := by rw [hline]; rfl
  have hstop : containsSub "stop".toList ((interpretLine line).headD []) = false := by
    rw [hmnem]; decide
  have hcalc : calculate
      (lookupD dict ((interpretLine line).headD []) (List.replicate 11 '0'))
      (interpretLine line) = some (List.replicate 32 '0') := by
    rw [hmnem, lookupD_of_not_hasKey hkey, hline]
    decide
  rw [interpretInput, if_neg (by rw [hstop]; exact Bool.false_ne_true), hcalc]
  by_cases hsev : sev = 2
  · subst hsev
    exact ⟨rfl, rfl, rfl⟩
  · simp [hsev]

theorem c2_witness :
    (interpretInput [("add".toList, "000000".toList)] 0 ["// note".toList]).outputs
        = List.replicate 32 '0'
            :: (interpretInput [("add".toList, "000000".toList)] 0 []).outputs
    ∧ (interpretInput [("add".toList, "000000".toList)] 0 ["// note".toList]).diags.length
        = (interpretInput [("add".toList, "000000".toList)] 0 []).diags.length + 1
    ∧ (interpretInput [("add".toList, "000000".toList)] 0 ["// note".toList]).aborted
        = (interpretInput [("add".toList, "000000".toList)] 0 []).aborted :=
  c2_empty_line_emits_zero_word [("add".toList, "000000".toList)] 0 "// note".toList []
    (by decide) (by decide)

theorem severity_not_two_irrelevant {s₁ s₂ : Int} (h₁ : s₁ ≠ 2) (h₂ : s₂ ≠ 2)
    (dict : List (List Char × List Char)) (lines : List (List Char)) :
    interpretInput dict s₁ lines = interpretInput dict s₂ lines := by
  induction lines with
  | nil => rfl
  | cons line rest ih =>
    rw [interpretInput, interpretInput]
    by_cases hstop : containsSub "stop".toList ((interpretLine line).headD []) = true
    · rw [if_pos hstop, if_pos hstop]
    · rw [if_neg hstop, if_neg hstop]
      cases hcalc : calculate
          (lookupD dict ((interpretLine line).headD []) (List.replicate 11 '0'))
          (interpretLine line) with
      | none => rfl
      | some binary =>
        simp [h₁, h₂, ih]

/-- Claim C3 (evaluation of the defect): the CLI turns `--debug` into the
Python bool `True`, so `log_severity` is 1 or 0 but never the value 2
that `interpret_input` tests for; the whole run — primary output and
diagnostic records alike — is therefore identical with and without
`--debug`, and the hexadecimal column is never included, contradicting
the claim that `--debug` adds it. -/
theorem c3_debug_flag_has_no_effect (debug : Bool)
    (dict : List (List Char × List Char)) (lines : List (List Char)) :
    interpretInput dict (mainSeverity debug) lines
      = interpretInput dict (mainSeverity false) lines := by
  apply severity_not_two_irrelevant
  · cases debug <;> decide
  · decide

theorem appendFields_eq_join {ops : List (List Char)} (acc : List Char)
    (fields : List (List Char)) (h : fieldsOf ops = some fields) :
    appendFields acc ops = some (acc ++ fields.flatten) := by
  induction ops generalizing acc fields with
  | nil =>
    rw [fieldsOf] at h
    cases h
    simp [appendFields]
  | cons op ops ih =>
    rw [fieldsOf] at h
    cases he : encodeOperand op with
    | none => rw [he] at h; simp at h
    | some f =>
      rw [he] at h
      cases hf : fieldsOf ops with
      | none => rw [hf] at h; simp at h
      | some fs =>
        rw [hf] at h
        have hfs : fields = f :: fs := by
          have := Option.some.inj h
          exact this.symm
        subst hfs
        rw [appendFields, he]
        show appendFields (acc ++ f) ops = some (acc ++ (f :: fs).flatten)
        rw [ih _ _ hf]
        simp [List.flatten_cons, List.append_assoc]


theorem pyZfill_length (width : Nat) (s : List Char) :
    (pyZfill width s).length = max width s.length := by
  by_cases h : width ≤ s.length
  · unfold pyZfill
    rw [if_pos h]
    omega
  · cases s with
    | nil =>
      unfold pyZfill
      rw [if_neg h]
      simp at h ⊢
    | cons c rest =>
      unfold pyZfill
      rw [if_neg h]
      show (if c = '+' ∨ c = '-' then
              c :: (List.replicate (width - (c :: rest).length) '0' ++ rest)
            else List.replicate (width - (c :: rest).length) '0' ++ (c :: rest)).length
          = max width (c :: rest).length
      simp only [List.length_cons] at h
      by_cases hc : c = '+' ∨ c = '-'
      · rw [if_pos hc]
        simp only [List.length_cons, List.length_append, List.length_replicate]
        omega
      · rw [if_neg hc]
        simp only [List.length_cons, List.length_append, List.length_replicate]
        omega

theorem pyZfill_no_sign (width : Nat) {s : List Char}
    (h : ∀ x, s.head? = some x → x ≠ '+' ∧ x ≠ '-') :
    pyZfill width s = List.replicate (width - s.length) '0' ++ s := by
  by_cases hle : width ≤ s.length
  · unfold pyZfill
    rw [if_pos hle]
    have hz : width - s.length = 0 := by omega
    rw [hz]
    rfl
  · cases s with
    | nil =>
      unfold pyZfill
      rw [if_neg hle]
      simp
    | cons c rest =>
      have hc := h c rfl
      unfold pyZfill
      rw [if_neg hle]
      show (if c = '+' ∨ c = '-' then
              c :: (List.replicate (width - (c :: rest).length) '0' ++ rest)
            else List.replicate (width - (c :: rest).length) '0' ++ (c :: rest))
          = List.replicate (width - (c :: rest).length) '0' ++ (c :: rest)
      rw [if_neg (by rcases hc with ⟨h1, h2⟩; rintro (h3 | h3) <;> contradiction)]

theorem pyZfill_unchanged {width : Nat} {s : List Char} (h : width ≤ s.length) :
    pyZfill width s = s := by
  unfold pyZfill
  rw [if_pos h]

/-- Claim C6: the emitted word is the opcode field followed by the operand
fields in token order; when the concatenation is at most 32 characters it
is left-zero-padded to exactly 32, and when it exceeds 32 it is returned
unchanged (the word is then longer than 32, with no truncation). -/
theorem c6_word_assembly (operationCode : List Char) (operation : List (List Char))
    (fields : List (List Char)) (h : fieldsOf (operation.drop 1) = some fields) :
    calculate operationCode operation
        = some (pyZfill 32 (operationCode ++ fields.flatten))
    ∧ (pyZfill 32 (operationCode ++ fields.flatten)).length
        = max 32 (operationCode ++ fields.flatten).length
    ∧ ((operationCode ++ fields.flatten).length ≤ 32 →
        (pyZfill 32 (operationCode ++ fields.flatten)).length = 32)
    ∧ (32 < (operationCode ++ fields.flatten).length →
        pyZfill 32 (operationCode ++ fields.flatten) = operationCode ++ fields.flatten) := by
  refine ⟨?_, pyZfill_length _ _, ?_, ?_⟩
  · rw [calculate, appendFields_eq_join _ _ h]
    rfl
  · intro hle
    rw [pyZfill_length]
    omega
  · intro hgt
    exact pyZfill_unchanged (by omega)

theorem c6_witness :
    calculate "000000".toList ["add".toList, "1".toList, "2".toList]
        = some (pyZfill 32 ("000000".toList
            ++ ([ "0000001".toList, "0000010".toList ] : List (List Char)).flatten))
    ∧ (pyZfill 32 ("000000".toList
            ++ ([ "0000001".toList, "0000010".toList ] : List (List Char)).flatten)).length
        = max 32 ("000000".toList
            ++ ([ "0000001".toList, "0000010".toList ] : List (List Char)).flatten).length :=
  ⟨(c6_word_assembly "000000".toList ["add".toList, "1".toList, "2".toList]
      ["0000001".toList, "0000010".toList] (by decide)).1,
   (c6_word_assembly "000000".toList ["add".toList, "1".toList, "2".toList]
      ["0000001".toList, "0000010".toList] (by decide)).2.1⟩

theorem natBinAux_fuel (n : Nat) : ∀ f₁ f₂, n ≤ f₁ + 1 → n ≤ f₂ + 1 →
    natBinAux f₁ n = natBinAux f₂ n := by
  induction n using Nat.strong_induction_on with
  | _ n ih =>
    intro f₁ f₂ h₁ h₂
    by_cases hn : n < 2
    · cases f₁ <;> cases f₂ <;> simp [natBinAux, hn]
    · obtain ⟨g₁, rfl⟩ : ∃ g, f₁ = g + 1 := ⟨f₁ - 1, by omega⟩
      obtain ⟨g₂, rfl⟩ : ∃ g, f₂ = g + 1 := ⟨f₂ - 1, by omega⟩
      simp only [natBinAux, if_neg hn]
      rw [ih (n / 2) (by omega) g₁ g₂ (by omega) (by omega)]

theorem natBin_eq (n : Nat) :
    natBin n = if n < 2 then [if n = 1 then '1' else '0']
               else natBin (n / 2) ++ [if n % 2 = 1 then '1' else '0'] := by
  by_cases hn : n < 2
  · rw [if_pos hn]
    have hcase : n = 0 ∨ n = 1 := by omega
    rcases hcase with rfl | rfl <;> rfl
  · rw [if_neg hn]
    obtain ⟨m, rfl⟩ : ∃ m, n = m + 1 := ⟨n - 1, by omega⟩
    show natBinAux (m + 1) (m + 1) = natBin ((m + 1) / 2) ++ _
    simp only [natBinAux, if_neg hn]
    rw [natBin, natBinAux_fuel ((m + 1) / 2) m ((m + 1) / 2) (by omega) (by omega)]

theorem natBin_ne_nil (n : Nat) : natBin n ≠ [] := by
  rw [natBin_eq]
  by_cases hn : n < 2
  · simp [hn]
  · simp [hn]

theorem natBin_chars (n : Nat) : ∀ ch ∈ natBin n, ch = '0' ∨ ch = '1' := by
  induction n using Nat.strong_induction_on with
  | _ n ih =>
    rw [natBin_eq]
    by_cases hn : n < 2
    · rw [if_pos hn]
      intro ch hch
      simp only [List.mem_singleton] at hch
      subst hch
      by_cases h1 : n = 1 <;> simp [h1]
    · rw [if_neg hn]
      intro ch hch
      rcases List.mem_append.mp hch with h1 | h1
      · exact ih (n / 2) (by omega) ch h1
      · simp only [List.mem_singleton] at h1
        subst h1
        by_cases h2 : n % 2 = 1 <;> simp [h2]

theorem natBin_length_le : ∀ k n, n < 2 ^ k → (natBin n).length ≤ max 1 k := by
  intro k
  induction k with
  | zero =>
    intro n h
    simp only [pow_zero, Nat.lt_one_iff] at h
    subst h
    decide
  | succ k ih =>
    intro n h
    rw [natBin_eq]
    by_cases hn : n < 2
    · rw [if_pos hn]
      simp
    · rw [if_neg hn]
      have hdiv : n / 2 < 2 ^ k := by
        have h2 : (2 : Nat) ^ (k + 1) = 2 ^ k * 2 := by rw [pow_succ]
        rw [h2] at h
        omega
      have hlen := ih (n / 2) hdiv
      have hk : 1 ≤ k := by
        by_contra hk0
        have hke : k = 0 := by omega
        subst hke
        simp at h
        omega
      have hmax1 : max 1 k = k := Nat.max_eq_right hk
      have hmax2 : max 1 (k + 1) = k + 1 := Nat.max_eq_right (by omega)
      rw [hmax1] at hlen
      rw [List.length_append, hmax2]
      simp only [List.length_cons, List.length_nil]
      omega

theorem populate_binRepr_eq (v : Int) :
    populate (binRepr v) 7
      = List.replicate (7 - (natBin v.natAbs).length) '0' ++ natBin v.natAbs := by
  obtain ⟨d, rest, hd⟩ : ∃ d rest, natBin v.natAbs = d :: rest := by
    cases hx : natBin v.natAbs with
    | nil => exact absurd hx (natBin_ne_nil _)
    | cons d rest => exact ⟨d, rest, rfl⟩
  have hdbit : d = '0' ∨ d = '1' :=
    natBin_chars _ d (by rw [hd]; exact List.mem_cons_self _ _)
  have hdd : (d == '-') = false := by
    rcases hdbit with h | h <;> simp [h]
  have hstep : List.dropWhile (fun x => x == '-') (natBin v.natAbs) = natBin v.natAbs := by
    rw [hd, List.dropWhile_cons]
    simp [hdd]
  have hl : pyLstripChar '-' (binRepr v) = natBin v.natAbs := by
    rw [binRepr]
    by_cases hv : v < 0
    · rw [if_pos hv, pyLstripChar, List.dropWhile_cons]
      simp only [show (('-' : Char) == '-') = true from rfl, if_true]
      exact hstep
    · rw [if_neg hv, pyLstripChar]
      exact hstep
  have hz : pyZfill 7 (natBin v.natAbs)
      = List.replicate (7 - (natBin v.natAbs).length) '0' ++ natBin v.natAbs :=
    pyZfill_no_sign 7 (by
      intro x hx
      rw [hd] at hx
      simp only [List.head?_cons, Option.some.injEq] at hx
      subst hx
      rcases hdbit with h | h <;> simp [h])
  have hh : (List.replicate (7 - (natBin v.natAbs).length) '0' ++ natBin v.natAbs).head?
      ≠ some '-' := by
    cases hrep : 7 - (natBin v.natAbs).length with
    | zero =>
      rw [List.replicate_zero, List.nil_append, hd, List.head?_cons]
      intro hcon
      have hdm := Option.some.inj hcon
      rcases hdbit with h | h <;> rw [h] at hdm <;> exact absurd hdm (by decide)
    | succ p =>
      rw [List.replicate_succ, List.cons_append, List.head?_cons]
      intro hcon
      exact absurd (Option.some.inj hcon) (by decide)
  show (if (pyZfill 7 (pyLstripChar '-' (binRepr v))).head? = some '-'
        then '1' :: (pyZfill 7 (pyLstripChar '-' (binRepr v))).tail
        else pyZfill 7 (pyLstripChar '-' (binRepr v)))
      = List.replicate (7 - (natBin v.natAbs).length) '0' ++ natBin v.natAbs
  rw [hl, hz, if_neg hh]

theorem populate_binRepr_chars (v : Int) :
    ∀ ch ∈ populate (binRepr v) 7, ch = '0' ∨ ch = '1' := by
  rw [populate_binRepr_eq]
  intro ch hch
  rcases List.mem_append.mp hch with h | h
  · left; exact List.eq_of_mem_replicate h
  · exact natBin_chars _ ch h

theorem populate_binRepr_length (v : Int) :
    (populate (binRepr v) 7).length = max 7 (natBin v.natAbs).length := by
  rw [populate_binRepr_eq, List.length_append, List.length_replicate]
  omega

theorem populate_binRepr_length_of_small {v : Int} (h : v.natAbs < 128) :
    (populate (binRepr v) 7).length = 7 := by
  have h128 : v.natAbs < 2 ^ 7 := by
    have : (2 : Nat) ^ 7 = 128 := by norm_num
    rw [this]
    exact h
  have hle := natBin_length_le 7 v.natAbs h128
  have hmax : max 1 7 = 7 := by decide
  rw [hmax] at hle
  rw [populate_binRepr_length]
  omega

theorem encodeOperand_chars {op f : List Char} (h : encodeOperand op = some f) :
    ∀ ch ∈ f, ch = '0' ∨ ch = '1' := by
  rw [encodeOperand] at h
  by_cases hp : '(' ∈ op ∧ ')' ∈ op
  · rw [if_pos hp] at h
    cases hr : pyInt ((pySplitChar '(' op).headD []) with
    | none => rw [hr] at h; simp at h
    | some r =>
      rw [hr] at h
      cases ho : pyInt (pyRstripChar ')' (((pySplitChar '(' op).drop 1).headD [])) with
      | none => rw [ho] at h; simp at h
      | some o =>
        rw [ho] at h
        have hf : f = populate (binRepr r) 7 ++ populate (binRepr o) 7 :=
          (Option.some.inj h).symm
        subst hf
        intro ch hch
        rcases List.mem_append.mp hch with h1 | h1
        · exact populate_binRepr_chars r ch h1
        · exact populate_binRepr_chars o ch h1
  · rw [if_neg hp, encodePlain] at h
    cases hv : pyInt op with
    | none => rw [hv] at h; simp at h
    | some v =>
      rw [hv] at h
      simp only [Option.map_some'] at h
      have hf : f = populate (binRepr v) 7 := (Option.some.inj h).symm
      subst hf
      exact populate_binRepr_chars v

theorem fieldsOf_chars {ops : List (List Char)} {fields : List (List Char)}
    (h : fieldsOf ops = some fields) : ∀ ch ∈ fields.flatten, ch = '0' ∨ ch = '1' := by
  induction ops generalizing fields with
  | nil =>
    rw [fieldsOf] at h
    cases h
    simp
  | cons op ops ih =>
    rw [fieldsOf] at h
    cases he : encodeOperand op with
    | none => rw [he] at h; simp at h
    | some f =>
      rw [he] at h
      cases hf : fieldsOf ops with
      | none => rw [hf] at h; simp at h
      | some fs =>
        rw [hf] at h
        have hfs : fields = f :: fs := (Option.some.inj h).symm
        subst hfs
        intro ch hch
        rw [List.flatten_cons] at hch
        rcases List.mem_append.mp hch with h1 | h1
        · exact encodeOperand_chars he ch h1
        · exact ih hf ch h1

/-- Claim C5: for a mnemonic absent from the opcode table the lookup never
fails — it returns the fixed 11-bit all-zero fallback — and an instruction
whose operand tokens all encode (total field width fitting the word) is
still assembled into a well-formed 32-bit word of `'0'`/`'1'` characters. -/
theorem c5_unknown_mnemonic (dict : List (List Char × List Char))
    (operation : List (List Char)) (fields : List (List Char))
    (hkey : hasKey dict (operation.headD []) = false)
    (hf : fieldsOf (operation.drop 1) = some fields)
    (hlen : fields.flatten.length ≤ 21) :
    lookupD dict (operation.headD []) (List.replicate 11 '0') = List.replicate 11 '0'
    ∧ calculate (lookupD dict (operation.headD []) (List.replicate 11 '0')) operation
        = some (pyZfill 32 (List.replicate 11 '0' ++ fields.flatten))
    ∧ (pyZfill 32 (List.replicate 11 '0' ++ fields.flatten)).length = 32
    ∧ ∀ ch ∈ pyZfill 32 (List.replicate 11 '0' ++ fields.flatten),
        ch = '0' ∨ ch = '1' := by
  have hlook := lookupD_of_not_hasKey hkey (List.replicate 11 '0')
  have hhead : (List.replicate 11 '0' ++ fields.flatten).head? = some '0' := rfl
  have hz := pyZfill_no_sign 32 (s := List.replicate 11 '0' ++ fields.flatten) (by
    intro x hx
    rw [hhead] at hx
    have hx0 := Option.some.inj hx
    subst hx0
    exact ⟨by decide, by decide⟩)
  refine ⟨hlook, ?_, ?_, ?_⟩
  · rw [hlook, calculate, appendFields_eq_join _ _ hf]
    rfl
  · rw [pyZfill_length]
    simp only [List.length_append, List.length_replicate]
    omega
  · rw [hz]
    intro ch hch
    rcases List.mem_append.mp hch with h1 | h1
    · left; exact List.eq_of_mem_replicate h1
    · rcases List.mem_append.mp h1 with h2 | h2
      · left; exact List.eq_of_mem_replicate h2
      · exact fieldsOf_chars hf ch h2

theorem c5_witness :
    lookupD [("add".toList, "000000".toList)]
        (["sub".toList, "1".toList, "2".toList].headD []) (List.replicate 11 '0')
      = List.replicate 11 '0'
    ∧ calculate (lookupD [("add".toList, "000000".toList)]
          (["sub".toList, "1".toList, "2".toList].headD []) (List.replicate 11 '0'))
        ["sub".toList, "1".toList, "2".toList]
        = some (pyZfill 32 (List.replicate 11 '0'
            ++ ([ "0000001".toList, "0000010".toList ] : List (List Char)).flatten))
    ∧ (pyZfill 32 (List.replicate 11 '0'
          ++ ([ "0000001".toList, "0000010".toList ] : List (List Char)).flatten)).length
      = 32
    ∧ ∀ ch ∈ pyZfill 32 (List.replicate 11 '0'
          ++ ([ "0000001".toList, "0000010".toList ] : List (List Char)).flatten),
        ch = '0' ∨ ch = '1' :=
  c5_unknown_mnemonic [("add".toList, "000000".toList)]
    ["sub".toList, "1".toList, "2".toList]
    ["0000001".toList, "0000010".toList] (by decide) (by decide) (by decide)

theorem pySplitChar_of_not_mem {c : Char} {s : List Char} (h : c ∉ s) :
    pySplitChar c s = [s] := by
  induction s with
  | nil => rfl
  | cons a rest ih =>
    have ha : ¬a = c := by
      intro e
      exact h (by rw [e]; exact List.mem_cons_self _ _)
    rw [pySplitChar, if_neg ha, ih (fun hm => h (List.mem_cons_of_mem a hm))]

theorem pySplitChar_append_sep {c : Char} {R : List Char} (rest : List Char)
    (h : c ∉ R) : pySplitChar c (R ++ c :: rest) = R :: pySplitChar c rest := by
  induction R with
  | nil => rw [List.nil_append, pySplitChar, if_pos rfl]
  | cons a R' ih =>
    have ha : ¬a = c := by
      intro e
      exact h (by rw [e]; exact List.mem_cons_self _ _)
    rw [List.cons_append, pySplitChar, if_neg ha,
      ih (fun hm => h (List.mem_cons_of_mem a hm))]

theorem pyRstripChar_append_close {O : List Char} (h : ')' ∉ O) :
    pyRstripChar ')' (O ++ [')']) = O := by
  rw [pyRstripChar, List.reverse_append]
  show (List.dropWhile (fun x => x == ')') (')' :: O.reverse)).reverse = O
  rw [List.dropWhile_cons]
  simp only [show ((')' : Char) == ')') = true from rfl, if_true]
  have hrest : List.dropWhile (fun x => x == ')') O.reverse = O.reverse := by
    cases hx : O.reverse with
    | nil => rfl
    | cons b tl =>
      have hb : b ∈ O := by
        have hmem : b ∈ O.reverse := by rw [hx]; exact List.mem_cons_self _ _
        simpa [List.mem_reverse] using hmem
      have hbne : (b == ')') = false := by
        simp only [beq_eq_false_iff_ne, ne_eq]
        intro e
        exact h (e ▸ hb)
      rw [List.dropWhile_cons, hbne]
      simp
  rw [hrest, List.reverse_reverse]

/-- Claim C7: an indexed operand token `R(O)` with integer parts is split
at the first `'('` into `R` and `O`, each part is encoded independently by
the plain signed-field encoder at width 7, and the two fields are
concatenated register-field-then-offset-field — 14 bits total when both
magnitudes fit in 7 bits. -/
theorem c7_indexed_operand (R O : List Char) (r o : Int)
    (hR : '(' ∉ R) (hO1 : '(' ∉ O) (hO2 : ')' ∉ O)
    (hr : pyInt R = some r) (ho : pyInt O = some o) :
    encodeOperand (R ++ '(' :: (O ++ [')']))
        = some (populate (binRepr r) 7 ++ populate (binRepr o) 7)
    ∧ encodePlain R = some (populate (binRepr r) 7)
    ∧ encodePlain O = some (populate (binRepr o) 7)
    ∧ (r.natAbs < 128 → o.natAbs < 128 →
        (populate (binRepr r) 7 ++ populate (binRepr o) 7).length = 14) := by
  have hmem1 : '(' ∈ R ++ '(' :: (O ++ [')']) := by simp
  have hmem2 : ')' ∈ R ++ '(' :: (O ++ [')']) := by simp
  have hO1' : '(' ∉ O ++ [')'] := by
    intro hm
    rcases List.mem_append.mp hm with hm | hm
    · exact hO1 hm
    · simp at hm
  have hsplit : pySplitChar '(' (R ++ '(' :: (O ++ [')']))
      = R :: [O ++ [')']] := by
    rw [pySplitChar_append_sep _ hR, pySplitChar_of_not_mem hO1']
  refine ⟨?_, ?_, ?_, ?_⟩
  · rw [encodeOperand, if_pos ⟨hmem1, hmem2⟩, hsplit]
    show (match pyInt R, pyInt (pyRstripChar ')' (O ++ [')'])) with
          | some r, some o => some (populate (binRepr r) 7 ++ populate (binRepr o) 7)
          | _, _ => none)
        = some (populate (binRepr r) 7 ++ populate (binRepr o) 7)
    rw [pyRstripChar_append_close hO2, hr, ho]
  · rw [encodePlain, hr]
    rfl
  · rw [encodePlain, ho]
    rfl
  · intro hrs hos
    rw [List.length_append, populate_binRepr_length_of_small hrs,
      populate_binRepr_length_of_small hos]

theorem c7_witness :
    encodeOperand ("2(3)".toList)
        = some (populate (binRepr 2) 7 ++ populate (binRepr 3) 7)
    ∧ encodePlain "2".toList = some (populate (binRepr 2) 7)
    ∧ encodePlain "3".toList = some (populate (binRepr 3) 7)
    ∧ (populate (binRepr 2) 7 ++ populate (binRepr 3) 7).length = 14 := by
  have h := c7_indexed_operand "2".toList "3".toList 2 3 (by decide) (by decide)
    (by decide) (by decide) (by decide)
  have e : "2".toList ++ '(' :: ("3".toList ++ [')']) = "2(3)".toList := by decide
  rw [e] at h
  exact ⟨h.1, h.2.1, h.2.2.1, h.2.2.2 (by decide) (by decide)⟩

theorem importMap_append (d : List (List Char × List Char)) (ls₁ ls₂ : List (List Char)) :
    importMap d (ls₁ ++ ls₂) = (importMap d ls₁).bind (fun d' => importMap d' ls₂) := by
  induction ls₁ generalizing d with
  | nil => rfl
  | cons l ls ih =>
    rw [List.cons_append, importMap, importMap]
    cases hk : lineKey l with
    | none => rfl
    | some kv => exact ih (kv :: d)

theorem importMap_lookup_of_absent {ls : List (List Char)}
    {d d' : List (List Char × List Char)} {m : List Char}
    (h : importMap d ls = some d')
    (habs : ∀ l ∈ ls, ∀ p, lineKey l = some p → p.1 ≠ m) (fb : List Char) :
    lookupD d' m fb = lookupD d m fb := by
  induction ls generalizing d with
  | nil =>
    rw [importMap] at h
    cases h
    rfl
  | cons l ls ih =>
    rw [importMap] at h
    cases hk : lineKey l with
    | none => rw [hk] at h; simp at h
    | some kv =>
      rw [hk] at h
      have h1 := ih h (fun l' hl' => habs l' (List.mem_cons_of_mem _ hl'))
      rw [h1]
      obtain ⟨k, v⟩ := kv
      have hne : k ≠ m := habs l (List.mem_cons_self _ _) (k, v) hk
      rw [lookupD, if_neg hne]

/-- Claim C10: when several opcode-table lines carry the same mnemonic as
the first token of their descriptor, the loaded table maps that mnemonic
to the bit pattern of the last such line — later definitions silently
overwrite earlier ones. -/
theorem c10_last_definition_wins (d d' : List (List Char × List Char))
    (ls₁ ls₂ : List (List Char)) (l : List Char) (m code fb : List Char)
    (hl : lineKey l = some (m, code))
    (habs : ∀ l' ∈ ls₂, ∀ p, lineKey l' = some p → p.1 ≠ m)
    (h : importMap d (ls₁ ++ l :: ls₂) = some d') :
    lookupD d' m fb = code := by
  rw [importMap_append] at h
  cases h1 : importMap d ls₁ with
  | none => rw [h1] at h; simp at h
  | some d₁ =>
    rw [h1] at h
    simp only [Option.some_bind] at h
    rw [importMap, hl] at h
    have h2 := importMap_lookup_of_absent h habs fb
    rw [h2, lookupD, if_pos rfl]

theorem c10_witness :
    lookupD [("sub".toList, "000001".toList), ("add".toList, "111111".toList),
        ("add".toList, "000000".toList)] "add".toList [] = "111111".toList :=
  c10_last_definition_wins [] _ ["add x\t000000".toList] ["sub\t000001".toList]
    "add y\t111111".toList "add".toList "111111".toList []
    (by decide)
    (by
      intro l' hl' p hp
      simp only [List.mem_singleton] at hl'
      subst hl'
      have hkey : lineKey "sub\t000001".toList = some ("sub".toList, "000001".toList) := by
        decide
      rw [hkey] at hp
      have hps := Option.some.inj hp
      subst hps
      decide)
    (by decide)
